import Mathlib

/-!
# Decoder: a shallow embedding of `Decoder.cpp`

The development models `Decoder::details::decode` and `Decoder::decode`
(`src/Decoder.cpp`) together with the resource provider they call
(`Resource_Reserve` / `Resource_Free`, declared in `ResourceSystem.h` and
supplied by `ResourceSystemMock.cpp` in the tests).

Modelling choices.

* A `char` is a byte, `Fin 256`.  `msg[i] + 1` is computed in `int` and stored
  back into a `char`; on bytes that is `(b + 1) % 256`, written out explicitly
  in `incr`.
* A `std::string` of bytes `m` exposes through `data()` an array of
  `m.length + 1` bytes, the last one being the terminating zero (`cstr`).
* `msg.size() + 1` is computed in `size_t`; a `std::string` never holds
  `SIZE_MAX` bytes (`size() ≤ max_size() < SIZE_MAX`), so the sum does not wrap
  and is taken in `Nat`.
* `Resource_Reserve` is the environment: a function from the requested size to
  either no buffer (`nullptr`) or a handle with the bytes currently stored
  behind it.  The buffer's length is whatever the provider really allocated.
* An access outside the message array or outside the buffer is undefined
  behaviour; the model then yields `none`.
* Every provider call and every memory access is recorded, oldest first, in a
  trace.
-/

namespace Decoder

/-- One `char` of storage. -/
abbrev Byte := Fin 256

/-- A non-null `void*` handed out by the provider. -/
abbrev Handle := Nat

/-- The tag character `'#'`. -/
def hashChar : Byte := ⟨35, by decide⟩

/-- The character `'!'`. -/
def bangChar : Byte := ⟨33, by decide⟩

/-- The value stored by `output[i] = msg[i] + 1`. -/
def incr (b : Byte) : Byte := ⟨(b.val + 1) % 256, Nat.mod_lt _ (by decide)⟩

/-- The array behind `msg.data()`: the bytes of the string and a terminating zero. -/
def cstr (m : List Byte) : List Byte := m ++ [(⟨0, by decide⟩ : Byte)]

/-- Observable steps of one call of `Decoder::decode`. -/
inductive Event where
  | reserve (size : Nat)
  | msgRead (i : Nat)
  | bufWrite (i : Nat) (b : Byte)
  | bufRead (i : Nat)
  | release (h : Handle)
  deriving DecidableEq, Repr

/-- The scratch buffer behind `p.char_ptr` and the events so far, oldest first. -/
structure Mem where
  buf : List Byte
  trace : List Event
  deriving DecidableEq, Repr

/-- The resource provider: `Resource_Reserve(size)` yields `nullptr` (`none`) or a
handle and the bytes behind it. -/
structure Provider where
  reserve : Nat → Option (Handle × List Byte)

/-- The read `msg[i]`. -/
def readMsg (msg : List Byte) (i : Nat) (s : Mem) : Option (Byte × Mem) :=
  match msg[i]? with
  | none => none
  | some b => some (b, { s with trace := s.trace ++ [Event.msgRead i] })

/-- The write `output[i] = b`. -/
def writeBuf (i : Nat) (b : Byte) (s : Mem) : Option Mem :=
  if i < s.buf.length then
    some { buf := s.buf.set i b, trace := s.trace ++ [Event.bufWrite i b] }
  else none

/-- The loop `for (size_t i = ...; i < length; ++i) output[i] = msg[i] + 1;`
with `k = length - i` iterations left. -/
def details.decodeLoop (msg : List Byte) : Nat → Nat → Mem → Option Mem
  | 0, _, s => some s
  | k + 1, i, s =>
    match readMsg msg i s with
    | none => none
    | some (b, s1) =>
      match writeBuf i (incr b) s1 with
      | none => none
      | some s2 => details.decodeLoop msg k (i + 1) s2

/-- `int Decoder::details::decode(const char* msg, size_t length, char* output)`:
the returned `int` and the memory afterwards. -/
def details.decode (msg : List Byte) (length : Nat) (s : Mem) : Option (Int × Mem) :=
  if length = 0 then some (1, s)
  else
    match readMsg msg 0 s with
    | none => none
    | some (b, s1) =>
      if b ≠ hashChar then some (1, s1)
      else
        match writeBuf 0 bangChar s1 with
        | none => none
        | some s2 =>
          match details.decodeLoop msg (length - 1) 1 s2 with
          | none => none
          | some s3 => some (0, s3)

/-- `std::string result(p.char_ptr, n)`: copies the first `n` bytes of the buffer. -/
def copyOut (n : Nat) (s : Mem) : Option (List Byte × Mem) :=
  if n ≤ s.buf.length then
    some (s.buf.take n, { s with trace := s.trace ++ (List.range n).map Event.bufRead })
  else none

/-- What one call of `Decoder::decode` leaves behind: the returned pair, the
trace of the call, and the scratch buffer (if one was reserved) as `decode` hands
it to `Resource_Free`. -/
structure Outcome where
  value : List Byte × Int
  trace : List Event
  scratch : Option (Handle × List Byte)
  deriving DecidableEq, Repr

/-- `std::pair<std::string, int> Decoder::decode(const std::string& msg)`. -/
def decode (rs : Provider) (msg : List Byte) : Option Outcome :=
  let size := msg.length + 1
  match rs.reserve size with
  | none => some { value := ([], -1), trace := [Event.reserve size], scratch := none }
  | some (p, buf) =>
    match details.decode (cstr msg) size { buf := buf, trace := [Event.reserve size] } with
    | none => none
    | some (errorCode, s) =>
      if errorCode ≠ 0 then
        some { value := ([], errorCode), trace := s.trace ++ [Event.release p],
               scratch := some (p, s.buf) }
      else
        match copyOut (size - 1) s with
        | none => none
        | some (result, s1) =>
          some { value := (result, errorCode), trace := s1.trace ++ [Event.release p],
                 scratch := some (p, s1.buf) }

/-- The `std::string` of the returned pair. -/
abbrev Outcome.output (o : Outcome) : List Byte := o.value.1

/-- The `int` of the returned pair. -/
abbrev Outcome.status (o : Outcome) : Int := o.value.2

/-- The event is a call of `Resource_Reserve`. -/
def Event.isReserve : Event → Bool
  | .reserve _ => true
  | _ => false

/-- The event is a call of `Resource_Free`. -/
def Event.isRelease : Event → Bool
  | .release _ => true
  | _ => false

/-- The event is a read of the message or a read or write of the scratch buffer. -/
def Event.isAccess : Event → Bool
  | .msgRead _ => true
  | .bufWrite _ _ => true
  | .bufRead _ => true
  | _ => false

/-- The accesses made by the transform loop that starts at index `i` and runs
over the message bytes `rest`. -/
def loopEvents : Nat → List Byte → List Event
  | _, [] => []
  | i, r :: rest => Event.msgRead i :: Event.bufWrite i (incr r) :: loopEvents (i + 1) rest

/-- The buffer that `Resource_Reserve(n)` hands out, if any, has the `n` bytes
that `Decoder::decode` goes on to use. -/
def Provider.honours (rs : Provider) (n : Nat) : Bool :=
  match rs.reserve n with
  | none => true
  | some (_, buf) => decide (n ≤ buf.length)

/-- The mock of `failed_reserve_resources`: `Resource_Reserve` always returns `nullptr`. -/
def nullProvider : Provider := ⟨fun _ => none⟩

/-- The mock of `EXPECT_CALL(rs, Resource_Reserve(n)).WillOnce(Return(out))`: the
request for `n` bytes gets handle `h` with the bytes `buf` behind it, any other
request gets `nullptr`. -/
def expectProvider (n : Nat) (h : Handle) (buf : List Byte) : Provider :=
  ⟨fun k => if k = n then some (h, buf) else none⟩

/-- The message `"#abc"`. -/
def msgAbc : List Byte := [35, 97, 98, 99]

/-- The message `"wrong message"`. -/
def msgWrong : List Byte := [119, 114, 111, 110, 103, 32, 109, 101, 115, 115, 97, 103, 101]

/-- The message `"message which needs too much resources"`. -/
def msgTooMuch : List Byte :=
  [109, 101, 115, 115, 97, 103, 101, 32, 119, 104, 105, 99, 104, 32, 110, 101, 101, 100, 115,
   32, 116, 111, 111, 32, 109, 117, 99, 104, 32, 114, 101, 115, 111, 117, 114, 99, 101, 115]

/-- The two-byte message `'#', 0xFF`. -/
def msgWrap : List Byte := [35, 255]

/-- The event is an access of the validation/transform step: a read of the
message or a write of the scratch buffer. -/
def Event.isTransformAccess : Event → Bool
  | .msgRead _ => true
  | .bufWrite _ _ => true
  | _ => false

/-- The call of `Resource_Free` that ends a call of `decode`, given what
`Resource_Reserve` returned: there is none when no buffer was handed out. -/
def closing : Option (Handle × List Byte) → List Event
  | none => []
  | some (h, _) => [Event.release h]

/-- The byte `b - 1` modulo 256. -/
def decr (b : Byte) : Byte := ⟨(b.val + 255) % 256, Nat.mod_lt _ (by decide)⟩

/-- Follows the words of the claim on injectivity, not the source: the map that
replaces `'!'` by `'#'` at index 0 and subtracts 1 modulo 256 from every other byte. -/
def specInverse : List Byte → List Byte
  | [] => []
  | b :: rest => (if b = bangChar then hashChar else b) :: rest.map decr

/-- The message `"#ab"`. -/
def msgAb : List Byte := [35, 97, 98]

/-! ## The three paths of `decode` -/

theorem incr_val (b : Byte) : (incr b).val = (b.val + 1) % 256 := rfl

theorem decodeLoop_run (pre : List Byte) :
    ∀ (rest : List Byte) (bpre brest : List Byte) (tr : List Event) (post : List Byte),
      bpre.length = pre.length → rest.length ≤ brest.length →
      details.decodeLoop (pre ++ rest ++ post) rest.length pre.length
          { buf := bpre ++ brest, trace := tr } =
        some { buf := bpre ++ rest.map incr ++ brest.drop rest.length,
               trace := tr ++ loopEvents pre.length rest } := by
  intro rest
  induction rest generalizing pre with
  | nil => intro bpre brest tr post _ _; simp [details.decodeLoop, loopEvents]
  | cons r rest ih =>
    intro bpre brest tr post hlen hle
    cases brest with
    | nil => simp at hle
    | cons b brest =>
      have h1 : (pre ++ r :: rest ++ post)[pre.length]? = some r := by
        simp only [List.append_assoc, List.cons_append]
        rw [List.getElem?_append_right (Nat.le_refl _)]
        simp
      have ih2 := ih (pre ++ [r]) (bpre ++ [incr r]) brest
        (tr ++ [Event.msgRead pre.length, Event.bufWrite pre.length (incr r)]) post
        (by simp [hlen]) (by simpa using hle)
      simp only [List.length_cons, details.decodeLoop, readMsg, h1, writeBuf]
      have h2 : pre.length < (bpre ++ b :: brest).length := by simp [hlen]
      simp only [h2, if_true]
      have h3 : (bpre ++ b :: brest).set pre.length (incr r) = bpre ++ [incr r] ++ brest := by
        rw [← hlen]; simp
      rw [h3]
      simp only [List.length_append, List.length_singleton, List.append_assoc,
        List.singleton_append] at ih2
      simp only [List.append_assoc, List.singleton_append, List.cons_append,
        List.nil_append] at ih2 ⊢
      rw [ih2]
      simp [loopEvents]

theorem details_decode_wellformed (t : List Byte) (buf : List Byte) (tr : List Event)
    (hbuf : t.length + 2 ≤ buf.length) :
    details.decode (cstr (hashChar :: t)) (t.length + 2) { buf := buf, trace := tr } =
      some (0, { buf := bangChar :: (t ++ [(0 : Byte)]).map incr ++ buf.drop (t.length + 2),
                 trace := tr ++ Event.msgRead 0 :: Event.bufWrite 0 bangChar ::
                   loopEvents 1 (t ++ [(0 : Byte)]) }) := by
  cases buf with
  | nil => simp at hbuf
  | cons b brest =>
    have hle : (t ++ [(0 : Byte)]).length ≤ brest.length := by
      simp only [List.length_cons, List.length_append, List.length_nil] at hbuf ⊢
      omega
    have hrun := decodeLoop_run [hashChar] (t ++ [(0 : Byte)]) [bangChar] brest
      (tr ++ [Event.msgRead 0] ++ [Event.bufWrite 0 bangChar]) [] rfl hle
    simp only [List.length_append, List.length_singleton, List.length_nil, List.append_nil,
      List.singleton_append] at hrun
    simp only [details.decode, cstr, readMsg, writeBuf]
    simp only [List.cons_append, List.getElem?_cons_zero, List.length_cons, List.set_cons_zero]
    simp only [Nat.add_eq_zero, OfNat.ofNat_ne_zero, and_false, if_false, ne_eq, not_true,
      Nat.zero_lt_succ, if_true, Nat.add_one_sub_one]
    have h0 : (⟨0, by decide⟩ : Byte) = 0 := rfl
    rw [h0, hrun]
    simp

theorem details_decode_malformed (m : List Byte) (s : Mem) (htag : m[0]? ≠ some hashChar) :
    details.decode (cstr m) (m.length + 1) s =
      some (1, { buf := s.buf, trace := s.trace ++ [Event.msgRead 0] }) := by
  cases m with
  | nil => simp [details.decode, cstr, readMsg, hashChar]
  | cons b t =>
    have hb : b ≠ hashChar := by simpa using htag
    simp [details.decode, cstr, readMsg, hb]

theorem decode_null (rs : Provider) (m : List Byte) (hres : rs.reserve (m.length + 1) = none) :
    decode rs m =
      some { value := ([], -1), trace := [Event.reserve (m.length + 1)], scratch := none } := by
  simp [decode, hres]

theorem decode_malformed (rs : Provider) (m : List Byte) (h : Handle) (buf : List Byte)
    (hres : rs.reserve (m.length + 1) = some (h, buf)) (htag : m[0]? ≠ some hashChar) :
    decode rs m =
      some { value := ([], 1),
             trace := [Event.reserve (m.length + 1), Event.msgRead 0, Event.release h],
             scratch := some (h, buf) } := by
  simp [decode, hres, details_decode_malformed m _ htag]

theorem decode_wellformed (rs : Provider) (t : List Byte) (h : Handle) (buf : List Byte)
    (hres : rs.reserve (t.length + 2) = some (h, buf)) (hsize : t.length + 2 ≤ buf.length) :
    decode rs (hashChar :: t) =
      some { value := (bangChar :: t.map incr, 0),
             trace := Event.reserve (t.length + 2) :: Event.msgRead 0 ::
               Event.bufWrite 0 bangChar :: (loopEvents 1 (t ++ [(0 : Byte)]) ++
                 (List.range (t.length + 1)).map Event.bufRead ++ [Event.release h]),
             scratch := some (h, bangChar :: (t ++ [(0 : Byte)]).map incr ++
               buf.drop (t.length + 2)) } := by
  have hd := details_decode_wellformed t buf [Event.reserve (t.length + 2)] hsize
  simp only [decode, List.length_cons, hres, hd]
  simp [copyOut]

theorem eq_hash_cons_of_tag (m : List Byte) (htag : m[0]? = some hashChar) :
    ∃ t, m = hashChar :: t := by
  cases m with
  | nil => simp at htag
  | cons b t => exact ⟨t, by simpa using htag⟩

theorem honours_size (rs : Provider) (n : Nat) (h : Handle) (buf : List Byte)
    (hc : rs.honours n = true) (hres : rs.reserve n = some (h, buf)) : n ≤ buf.length := by
  simpa [Provider.honours, hres] using hc

/-! ## Events of the transform and of the copy-out -/

theorem loopEvents_filter_isRelease (rest : List Byte) :
    ∀ i, (loopEvents i rest).filter Event.isRelease = [] := by
  induction rest with
  | nil => intro i; rfl
  | cons r rest ih => intro i; simp [loopEvents, Event.isRelease, ih]

theorem loopEvents_filter_isReserve (rest : List Byte) :
    ∀ i, (loopEvents i rest).filter Event.isReserve = [] := by
  induction rest with
  | nil => intro i; rfl
  | cons r rest ih => intro i; simp [loopEvents, Event.isReserve, ih]

theorem bufReads_filter_isRelease (l : List Nat) :
    (l.map Event.bufRead).filter Event.isRelease = [] := by
  induction l with
  | nil => rfl
  | cons a l ih => simp [Event.isRelease, ih]

theorem bufReads_filter_isReserve (l : List Nat) :
    (l.map Event.bufRead).filter Event.isReserve = [] := by
  induction l with
  | nil => rfl
  | cons a l ih => simp [Event.isReserve, ih]

/-- Every run of `decode` against a provider that hands out what was asked takes
one of three paths. -/
theorem decode_paths (rs : Provider) (m : List Byte) (hc : rs.honours (m.length + 1) = true) :
    (rs.reserve (m.length + 1) = none ∧
      decode rs m = some { value := ([], -1), trace := [Event.reserve (m.length + 1)],
                           scratch := none }) ∨
    (∃ h buf, rs.reserve (m.length + 1) = some (h, buf) ∧ m[0]? ≠ some hashChar ∧
      decode rs m = some { value := ([], 1),
                           trace := [Event.reserve (m.length + 1), Event.msgRead 0,
                                     Event.release h],
                           scratch := some (h, buf) }) ∨
    (∃ h buf t, rs.reserve (m.length + 1) = some (h, buf) ∧ m = hashChar :: t ∧
      decode rs m = some { value := (bangChar :: t.map incr, 0),
                           trace := Event.reserve (t.length + 2) :: Event.msgRead 0 ::
                             Event.bufWrite 0 bangChar :: (loopEvents 1 (t ++ [(0 : Byte)]) ++
                               (List.range (t.length + 1)).map Event.bufRead ++
                               [Event.release h]),
                           scratch := some (h, bangChar :: (t ++ [(0 : Byte)]).map incr ++
                             buf.drop (t.length + 2)) }) := by
  cases hres : rs.reserve (m.length + 1) with
  | none => exact Or.inl ⟨rfl, decode_null rs m hres⟩
  | some hb =>
    obtain ⟨h, buf⟩ := hb
    by_cases htag : m[0]? = some hashChar
    · obtain ⟨t, rfl⟩ := eq_hash_cons_of_tag m htag
      have hsize := honours_size rs _ h buf hc hres
      exact Or.inr (Or.inr ⟨h, buf, t, rfl, rfl, decode_wellformed rs t h buf hres hsize⟩)
    · exact Or.inr (Or.inl ⟨h, buf, rfl, htag, decode_malformed rs m h buf hres htag⟩)

/-! ## Contract of `decode` -/

/-- C1: for a message whose first byte is `'#'`, when `Resource_Reserve` yields a
buffer of at least `len(m)+1` bytes, `decode` returns `(result, 0)` where the
result has the length of the message, starts with `'!'`, and holds
`(m[i] + 1) mod 256` at every index `i` in `[1, len(m))`. -/
theorem decode_tagged_message (rs : Provider) (m : List Byte) (h : Handle) (buf : List Byte)
    (htag : m[0]? = some hashChar)
    (hres : rs.reserve (m.length + 1) = some (h, buf))
    (hsize : m.length + 1 ≤ buf.length) :
    ∃ out, decode rs m = some out ∧ out.status = 0 ∧
      out.output.length = m.length ∧
      out.output[0]? = some bangChar ∧
      ∀ (i : Nat) (hi : i < m.length), 1 ≤ i →
        (out.output[i]?).map Fin.val = some ((m[i].val + 1) % 256) := by
  obtain ⟨t, rfl⟩ := eq_hash_cons_of_tag m htag
  refine ⟨_, decode_wellformed rs t h buf hres hsize, rfl, by simp [Outcome.output],
    by simp [Outcome.output], ?_⟩
  intro i hi h1
  obtain ⟨j, rfl⟩ : ∃ j, i = j + 1 := ⟨i - 1, by omega⟩
  have hj : j < t.length := by simpa using hi
  simp [Outcome.output, List.getElem?_eq_getElem hj, incr_val]

/-- C1 on the test `successful_decode`: `decode("#abc")` is `("!bcd", 0)`. -/
theorem decode_tagged_message_witness :
    (msgAbc[0]? = some hashChar ∧
      (expectProvider 5 7 [0, 0, 0, 0, 0]).reserve (msgAbc.length + 1) =
        some (7, [0, 0, 0, 0, 0]) ∧
      msgAbc.length + 1 ≤ ([0, 0, 0, 0, 0] : List Byte).length) ∧
    (∃ out, decode (expectProvider 5 7 [0, 0, 0, 0, 0]) msgAbc = some out ∧ out.status = 0 ∧
      out.output.length = msgAbc.length ∧
      out.output[0]? = some bangChar ∧
      ∀ (i : Nat) (hi : i < msgAbc.length), 1 ≤ i →
        (out.output[i]?).map Fin.val = some ((msgAbc[i].val + 1) % 256)) ∧
    (decode (expectProvider 5 7 [0, 0, 0, 0, 0]) msgAbc).map Outcome.value =
      some ([33, 98, 99, 100], 0) :=
  ⟨⟨by decide, by decide, by decide⟩,
   decode_tagged_message (expectProvider 5 7 [0, 0, 0, 0, 0]) msgAbc 7 [0, 0, 0, 0, 0]
     (by decide) (by decide) (by decide),
   by decide⟩

/-- C2: for a non-empty message whose first byte is not `'#'`, when
`Resource_Reserve` yields a buffer, `decode` returns `("", 1)`. -/
theorem decode_untagged_message (rs : Provider) (m : List Byte) (h : Handle) (buf : List Byte)
    (htag : ∃ b, m[0]? = some b ∧ b ≠ hashChar)
    (hres : rs.reserve (m.length + 1) = some (h, buf)) :
    (decode rs m).map Outcome.value = some ([], 1) := by
  obtain ⟨b, hb, hne⟩ := htag
  have htag2 : m[0]? ≠ some hashChar := by
    rw [hb]
    exact fun he => hne (Option.some.inj he)
  rw [decode_malformed rs m h buf hres htag2]
  rfl

/-- C2 on the test `unsuccessful_decode`: `decode("wrong message")` is `("", 1)`. -/
theorem decode_untagged_message_witness :
    ((∃ b, msgWrong[0]? = some b ∧ b ≠ hashChar) ∧
      (expectProvider 14 7 (List.replicate 14 0)).reserve (msgWrong.length + 1) =
        some (7, List.replicate 14 0)) ∧
    (decode (expectProvider 14 7 (List.replicate 14 0)) msgWrong).map Outcome.value =
      some ([], 1) :=
  ⟨⟨⟨119, by decide, by decide⟩, by decide⟩,
   decode_untagged_message (expectProvider 14 7 (List.replicate 14 0)) msgWrong 7
     (List.replicate 14 0) ⟨119, by decide, by decide⟩ (by decide)⟩

/-- C3: for the empty message, when `Resource_Reserve` yields a buffer, `decode`
returns `("", 1)`. -/
theorem decode_empty_message (rs : Provider) (m : List Byte) (h : Handle) (buf : List Byte)
    (hlen : m.length = 0)
    (hres : rs.reserve (m.length + 1) = some (h, buf)) :
    (decode rs m).map Outcome.value = some ([], 1) := by
  have hm : m = [] := List.length_eq_zero.mp hlen
  subst hm
  rw [decode_malformed rs [] h buf hres (by simp)]
  rfl

/-- C3 on the scenario `decode("")`, with a one-byte buffer handed out. -/
theorem decode_empty_message_witness :
    (([] : List Byte).length = 0 ∧
      (expectProvider 1 7 [0]).reserve (([] : List Byte).length + 1) = some (7, [0])) ∧
    (decode (expectProvider 1 7 [0]) []).map Outcome.value = some ([], 1) :=
  ⟨⟨by decide, by decide⟩,
   decode_empty_message (expectProvider 1 7 [0]) [] 7 [0] (by decide) (by decide)⟩

/-- C4: whatever the message, if `Resource_Reserve` returns no buffer then
`decode` returns `("", -1)`. -/
theorem decode_reserve_failed (rs : Provider) (m : List Byte)
    (hres : rs.reserve (m.length + 1) = none) :
    (decode rs m).map Outcome.value = some ([], -1) := by
  rw [decode_null rs m hres]
  rfl

/-- C4 on the test `failed_reserve_resources`. -/
theorem decode_reserve_failed_witness :
    nullProvider.reserve (msgTooMuch.length + 1) = none ∧
    (decode nullProvider msgTooMuch).map Outcome.value = some ([], -1) :=
  ⟨by decide, decode_reserve_failed nullProvider msgTooMuch (by decide)⟩

/-- C5: in every call where `Resource_Reserve` returns a handle `h` (to a buffer
of the size asked for), `Resource_Free` is called exactly once, with `h`, as the
last step before `decode` returns, whether the message is accepted (status `0`)
or rejected (status `1`). -/
theorem decode_releases_once (rs : Provider) (m : List Byte) (h : Handle) (buf : List Byte)
    (hres : rs.reserve (m.length + 1) = some (h, buf))
    (hsize : m.length + 1 ≤ buf.length) :
    ∃ out, decode rs m = some out ∧
      (out.status = 0 ∨ out.status = 1) ∧
      out.trace.filter Event.isRelease = [Event.release h] ∧
      out.trace.getLast? = some (Event.release h) := by
  by_cases htag : m[0]? = some hashChar
  · obtain ⟨t, rfl⟩ := eq_hash_cons_of_tag m htag
    refine ⟨_, decode_wellformed rs t h buf hres hsize, Or.inl rfl, ?_, ?_⟩
    · simp [List.filter_cons, Event.isRelease, loopEvents_filter_isRelease,
        bufReads_filter_isRelease]
    · show (Event.reserve (t.length + 2) :: Event.msgRead 0 :: Event.bufWrite 0 bangChar ::
        (loopEvents 1 (t ++ [(0 : Byte)]) ++ (List.range (t.length + 1)).map Event.bufRead ++
          [Event.release h])).getLast? = some (Event.release h)
      simp only [← List.cons_append]
      exact List.getLast?_concat _
  · exact ⟨_, decode_malformed rs m h buf hres htag, Or.inr rfl, rfl, rfl⟩

/-- C5 on both tests: one release of the handle on the success path (`"#abc"`)
and on the malformed-input path (`"wrong message"`). -/
theorem decode_releases_once_witness :
    (∃ out, decode (expectProvider 5 7 [0, 0, 0, 0, 0]) msgAbc = some out ∧
      (out.status = 0 ∨ out.status = 1) ∧
      out.trace.filter Event.isRelease = [Event.release 7] ∧
      out.trace.getLast? = some (Event.release 7)) ∧
    (∃ out, decode (expectProvider 14 9 (List.replicate 14 0)) msgWrong = some out ∧
      (out.status = 0 ∨ out.status = 1) ∧
      out.trace.filter Event.isRelease = [Event.release 9] ∧
      out.trace.getLast? = some (Event.release 9)) :=
  ⟨decode_releases_once (expectProvider 5 7 [0, 0, 0, 0, 0]) msgAbc 7 [0, 0, 0, 0, 0]
     (by decide) (by decide),
   decode_releases_once (expectProvider 14 9 (List.replicate 14 0)) msgWrong 9
     (List.replicate 14 0) (by decide) (by decide)⟩

/-- C6: `decode` calls `Resource_Reserve` exactly once, as its first step, and
asks for exactly `len(m) + 1` bytes. -/
theorem decode_reserves_once (rs : Provider) (m : List Byte)
    (hc : rs.honours (m.length + 1) = true) :
    ∃ out, decode rs m = some out ∧
      out.trace.filter Event.isReserve = [Event.reserve (m.length + 1)] ∧
      out.trace.head? = some (Event.reserve (m.length + 1)) := by
  rcases decode_paths rs m hc with ⟨_, hd⟩ | ⟨h, buf, _, _, hd⟩ | ⟨h, buf, t, _, rfl, hd⟩
  · exact ⟨_, hd, rfl, rfl⟩
  · exact ⟨_, hd, rfl, rfl⟩
  · refine ⟨_, hd, ?_, rfl⟩
    simp [List.filter_cons, Event.isReserve, loopEvents_filter_isReserve,
      bufReads_filter_isReserve]

/-- C6 on the tests: `"#abc"` asks for 5 bytes, `"wrong message"` for 14. -/
theorem decode_reserves_once_witness :
    ((expectProvider 5 7 [0, 0, 0, 0, 0]).honours (msgAbc.length + 1) = true ∧
      ∃ out, decode (expectProvider 5 7 [0, 0, 0, 0, 0]) msgAbc = some out ∧
        out.trace.filter Event.isReserve = [Event.reserve 5] ∧
        out.trace.head? = some (Event.reserve 5)) ∧
    ((expectProvider 14 9 (List.replicate 14 0)).honours (msgWrong.length + 1) = true ∧
      ∃ out, decode (expectProvider 14 9 (List.replicate 14 0)) msgWrong = some out ∧
        out.trace.filter Event.isReserve = [Event.reserve 14] ∧
        out.trace.head? = some (Event.reserve 14)) :=
  ⟨⟨by decide, decode_reserves_once (expectProvider 5 7 [0, 0, 0, 0, 0]) msgAbc (by decide)⟩,
   ⟨by decide,
    decode_reserves_once (expectProvider 14 9 (List.replicate 14 0)) msgWrong (by decide)⟩⟩

/-- C7: the status returned by `decode` is one of `0`, `1`, `-1`; it is `-1`
exactly when `Resource_Reserve` returned no buffer, `1` exactly when a buffer was
returned and the message is empty or its first byte is not `'#'`, and `0` exactly
when a buffer was returned and the first byte is `'#'`. -/
theorem decode_status_cases (rs : Provider) (m : List Byte)
    (hc : rs.honours (m.length + 1) = true) :
    ∃ out, decode rs m = some out ∧
      (out.status = 0 ∨ out.status = 1 ∨ out.status = -1) ∧
      (out.status = -1 ↔ rs.reserve (m.length + 1) = none) ∧
      (out.status = 1 ↔ (rs.reserve (m.length + 1)).isSome = true ∧
        (m = [] ∨ ∃ b, m[0]? = some b ∧ b ≠ hashChar)) ∧
      (out.status = 0 ↔ (rs.reserve (m.length + 1)).isSome = true ∧
        m[0]? = some hashChar) := by
  rcases decode_paths rs m hc with ⟨hn, hd⟩ | ⟨h, buf, hs, htag, hd⟩ | ⟨h, buf, t, hs, rfl, hd⟩
  · refine ⟨_, hd, Or.inr (Or.inr rfl), ?_, ?_, ?_⟩ <;> simp [Outcome.status, hn]
  · refine ⟨_, hd, Or.inr (Or.inl rfl), ?_, ?_, ?_⟩
    · simp [Outcome.status, hs]
    · simp only [Outcome.status, hs, Option.isSome_some, true_and, true_iff]
      cases m with
      | nil => exact Or.inl rfl
      | cons b t => exact Or.inr ⟨b, by simp, by simpa using htag⟩
    · simp [Outcome.status, hs, htag]
  · have hs2 : rs.reserve (t.length + 1 + 1) = some (h, buf) := hs
    refine ⟨_, hd, Or.inl rfl, ?_, ?_, ?_⟩ <;> simp [Outcome.status, hs2]

/-- C7 on the three tests: status `0` for `"#abc"`, `1` for `"wrong message"`,
`-1` when no buffer is handed out. -/
theorem decode_status_cases_witness :
    (expectProvider 5 7 [0, 0, 0, 0, 0]).honours (msgAbc.length + 1) = true ∧
    (∃ out, decode (expectProvider 5 7 [0, 0, 0, 0, 0]) msgAbc = some out ∧
      (out.status = 0 ∨ out.status = 1 ∨ out.status = -1) ∧
      (out.status = -1 ↔
        (expectProvider 5 7 [0, 0, 0, 0, 0]).reserve (msgAbc.length + 1) = none) ∧
      (out.status = 1 ↔
        ((expectProvider 5 7 [0, 0, 0, 0, 0]).reserve (msgAbc.length + 1)).isSome = true ∧
        (msgAbc = [] ∨ ∃ b, msgAbc[0]? = some b ∧ b ≠ hashChar)) ∧
      (out.status = 0 ↔
        ((expectProvider 5 7 [0, 0, 0, 0, 0]).reserve (msgAbc.length + 1)).isSome = true ∧
        msgAbc[0]? = some hashChar)) ∧
    (decode (expectProvider 5 7 [0, 0, 0, 0, 0]) msgAbc).map Outcome.status = some 0 ∧
    (decode (expectProvider 14 9 (List.replicate 14 0)) msgWrong).map Outcome.status = some 1 ∧
    (decode nullProvider msgTooMuch).map Outcome.status = some (-1) :=
  ⟨by decide,
   decode_status_cases (expectProvider 5 7 [0, 0, 0, 0, 0]) msgAbc (by decide),
   by decide, by decide, by decide⟩

/-- C8: if `decode` returns a status other than `0` the returned output is empty,
and if it returns status `0` the output is not empty. -/
theorem decode_output_iff_success (rs : Provider) (m : List Byte)
    (hc : rs.honours (m.length + 1) = true) :
    ∃ out, decode rs m = some out ∧
      (out.status ≠ 0 → out.output = []) ∧
      (out.status = 0 → out.output ≠ []) := by
  rcases decode_paths rs m hc with ⟨_, hd⟩ | ⟨h, buf, _, _, hd⟩ | ⟨h, buf, t, _, rfl, hd⟩
  · exact ⟨_, hd, fun _ => rfl, fun h0 => by simp [Outcome.status] at h0⟩
  · exact ⟨_, hd, fun _ => rfl, fun h0 => by simp [Outcome.status] at h0⟩
  · exact ⟨_, hd, fun h0 => absurd rfl h0, fun _ => List.cons_ne_nil _ _⟩

/-- C8 on the tests: a non-empty output with status `0` for `"#abc"`, an empty
output with status `1` for `"wrong message"`. -/
theorem decode_output_iff_success_witness :
    ((expectProvider 5 7 [0, 0, 0, 0, 0]).honours (msgAbc.length + 1) = true ∧
      ∃ out, decode (expectProvider 5 7 [0, 0, 0, 0, 0]) msgAbc = some out ∧
        (out.status ≠ 0 → out.output = []) ∧ (out.status = 0 → out.output ≠ [])) ∧
    ((expectProvider 14 9 (List.replicate 14 0)).honours (msgWrong.length + 1) = true ∧
      ∃ out, decode (expectProvider 14 9 (List.replicate 14 0)) msgWrong = some out ∧
        (out.status ≠ 0 → out.output = []) ∧ (out.status = 0 → out.output ≠ [])) :=
  ⟨⟨by decide,
    decode_output_iff_success (expectProvider 5 7 [0, 0, 0, 0, 0]) msgAbc (by decide)⟩,
   ⟨by decide,
    decode_output_iff_success (expectProvider 14 9 (List.replicate 14 0)) msgWrong
      (by decide)⟩⟩

/-- C9: if `Resource_Reserve` returns no buffer, the call of `Resource_Reserve` is
the only step `decode` takes: it never calls `Resource_Free` and reads or writes
neither the message nor a buffer before returning. -/
theorem decode_reserve_failed_stops (rs : Provider) (m : List Byte)
    (hres : rs.reserve (m.length + 1) = none) :
    ∃ out, decode rs m = some out ∧
      out.trace = [Event.reserve (m.length + 1)] ∧
      (∀ e ∈ out.trace, e.isRelease = false ∧ e.isAccess = false) ∧
      out.scratch = none := by
  refine ⟨_, decode_null rs m hres, rfl, ?_, rfl⟩
  intro e he
  have he2 : e = Event.reserve (m.length + 1) := by simpa using he
  subst he2
  exact ⟨rfl, rfl⟩

/-- C9 on the test `failed_reserve_resources`. -/
theorem decode_reserve_failed_stops_witness :
    nullProvider.reserve (msgTooMuch.length + 1) = none ∧
    ∃ out, decode nullProvider msgTooMuch = some out ∧
      out.trace = [Event.reserve 39] ∧
      (∀ e ∈ out.trace, e.isRelease = false ∧ e.isAccess = false) ∧
      out.scratch = none :=
  ⟨by decide, decode_reserve_failed_stops nullProvider msgTooMuch (by decide)⟩

/-- C10: the increment wraps modulo 256 and a produced zero byte does not cut the
result: for a message starting with `'#'` (buffer of at least `len(m)+1` bytes
handed out), the result has status `0` and the length of the message, and holds
`0` at every index `i` in `[1, len(m))` where the message holds `255`. -/
theorem decode_wraps_keeps_zero (rs : Provider) (m : List Byte) (h : Handle) (buf : List Byte)
    (htag : m[0]? = some hashChar)
    (hres : rs.reserve (m.length + 1) = some (h, buf))
    (hsize : m.length + 1 ≤ buf.length) :
    ∃ out, decode rs m = some out ∧ out.status = 0 ∧
      out.output.length = m.length ∧
      ∀ (i : Nat) (hi : i < m.length), 1 ≤ i → m[i].val = 255 →
        (out.output[i]?).map Fin.val = some 0 := by
  obtain ⟨t, rfl⟩ := eq_hash_cons_of_tag m htag
  refine ⟨_, decode_wellformed rs t h buf hres hsize, rfl, by simp [Outcome.output], ?_⟩
  intro i hi h1 h255
  obtain ⟨j, rfl⟩ : ∃ j, i = j + 1 := ⟨i - 1, by omega⟩
  have hj : j < t.length := by simpa using hi
  have hv : t[j].val = 255 := by simpa using h255
  simp [Outcome.output, List.getElem?_eq_getElem hj, incr_val, hv]

/-- C10 on the two-byte message `'#', 0xFF`: the result is the two bytes
`'!', 0x00` with status `0`. -/
theorem decode_wraps_keeps_zero_witness :
    (msgWrap[0]? = some hashChar ∧
      (expectProvider 3 7 [0, 0, 0]).reserve (msgWrap.length + 1) = some (7, [0, 0, 0]) ∧
      msgWrap.length + 1 ≤ ([0, 0, 0] : List Byte).length) ∧
    (∃ out, decode (expectProvider 3 7 [0, 0, 0]) msgWrap = some out ∧ out.status = 0 ∧
      out.output.length = msgWrap.length ∧
      ∀ (i : Nat) (hi : i < msgWrap.length), 1 ≤ i → msgWrap[i].val = 255 →
        (out.output[i]?).map Fin.val = some 0) ∧
    (decode (expectProvider 3 7 [0, 0, 0]) msgWrap).map Outcome.value = some ([33, 0], 0) :=
  ⟨⟨by decide, by decide, by decide⟩,
   decode_wraps_keeps_zero (expectProvider 3 7 [0, 0, 0]) msgWrap 7 [0, 0, 0]
     (by decide) (by decide) (by decide),
   by decide⟩

/-! ## Where the transform reads and writes -/

theorem mem_loopEvents (rest : List Byte) :
    ∀ (i : Nat) (e : Event), e ∈ loopEvents i rest →
      ∃ j, i ≤ j ∧ j < i + rest.length ∧
        (e = Event.msgRead j ∨ ∃ b, e = Event.bufWrite j b) := by
  induction rest with
  | nil => intro i e he; simp [loopEvents] at he
  | cons r rest ih =>
    intro i e he
    simp only [loopEvents, List.mem_cons] at he
    rcases he with rfl | rfl | he
    · exact ⟨i, Nat.le_refl _, by simp, Or.inl rfl⟩
    · exact ⟨i, Nat.le_refl _, by simp, Or.inr ⟨_, rfl⟩⟩
    · obtain ⟨j, h1, h2, h3⟩ := ih (i + 1) e he
      refine ⟨j, by omega, ?_, h3⟩
      simp only [List.length_cons]
      omega

theorem loopEvents_isTransformAccess (rest : List Byte) (i : Nat) (e : Event)
    (he : e ∈ loopEvents i rest) : e.isTransformAccess = true := by
  obtain ⟨j, _, _, h | ⟨b, h⟩⟩ := mem_loopEvents rest i e he <;> subst h <;> rfl

theorem loopEvents_isRelease (rest : List Byte) (i : Nat) (e : Event)
    (he : e ∈ loopEvents i rest) : e.isRelease = false := by
  obtain ⟨j, _, _, h | ⟨b, h⟩⟩ := mem_loopEvents rest i e he <;> subst h <;> rfl

/-- C11: when `Resource_Reserve` yields a buffer of exactly `len(m)+1` bytes the
call runs to its return without an out-of-bounds access: every buffer index the
validation/transform step writes is below `len(m)+1`, every message index it
reads is at most `len(m)` (the bytes of the message and its terminating zero),
and the copy-out reads only buffer indices below `len(m)`. -/
theorem decode_accesses_in_bounds (rs : Provider) (m : List Byte) (h : Handle)
    (buf : List Byte)
    (hres : rs.reserve (m.length + 1) = some (h, buf))
    (hexact : buf.length = m.length + 1) :
    ∃ out, decode rs m = some out ∧
      (∀ i b, Event.bufWrite i b ∈ out.trace → i < m.length + 1) ∧
      (∀ i, Event.msgRead i ∈ out.trace → i ≤ m.length) ∧
      (∀ i, Event.bufRead i ∈ out.trace → i < m.length) := by
  by_cases htag : m[0]? = some hashChar
  · obtain ⟨t, rfl⟩ := eq_hash_cons_of_tag m htag
    have hsize : t.length + 2 ≤ buf.length := by
      simp only [List.length_cons] at hexact
      omega
    refine ⟨_, decode_wellformed rs t h buf hres hsize, ?_, ?_, ?_⟩
    · intro i b hi
      simp only [List.mem_cons, List.mem_append, List.mem_map, List.mem_range,
        List.mem_singleton, List.not_mem_nil, or_false] at hi
      rcases hi with hi | hi | hi | (hi | hi) | hi
      · cases hi
      · cases hi
      · cases hi; simp
      · obtain ⟨j, h1, h2, h3⟩ := mem_loopEvents _ _ _ hi
        simp only [List.length_append, List.length_cons, List.length_nil] at h2 ⊢
        rcases h3 with h3 | ⟨c, h3⟩
        · cases h3
        · cases h3; omega
      · obtain ⟨j, _, h3⟩ := hi
        cases h3
      · cases hi
    · intro i hi
      simp only [List.mem_cons, List.mem_append, List.mem_map, List.mem_range,
        List.mem_singleton, List.not_mem_nil, or_false] at hi
      rcases hi with hi | hi | hi | (hi | hi) | hi
      · cases hi
      · cases hi; simp
      · cases hi
      · obtain ⟨j, h1, h2, h3⟩ := mem_loopEvents _ _ _ hi
        simp only [List.length_append, List.length_cons, List.length_nil] at h2 ⊢
        rcases h3 with h3 | ⟨c, h3⟩
        · cases h3; omega
        · cases h3
      · obtain ⟨j, _, h3⟩ := hi
        cases h3
      · cases hi
    · intro i hi
      simp only [List.mem_cons, List.mem_append, List.mem_map, List.mem_range,
        List.mem_singleton, List.not_mem_nil, or_false] at hi
      rcases hi with hi | hi | hi | (hi | hi) | hi
      · cases hi
      · cases hi
      · cases hi
      · obtain ⟨j, h1, h2, h3⟩ := mem_loopEvents _ _ _ hi
        rcases h3 with h3 | ⟨c, h3⟩
        · cases h3
        · cases h3
      · obtain ⟨j, hj, h3⟩ := hi
        cases h3
        simp only [List.length_cons]
        exact hj
      · cases hi
  · refine ⟨_, decode_malformed rs m h buf hres htag, ?_, ?_, ?_⟩
    · intro i b hi
      simp at hi
    · intro i hi
      have h0 : i = 0 := by simpa using hi
      omega
    · intro i hi
      simp at hi

/-- C11 on the test `successful_decode`, where the buffer is `char out[sizeof(msg)]`. -/
theorem decode_accesses_in_bounds_witness :
    ((expectProvider 5 7 [0, 0, 0, 0, 0]).reserve (msgAbc.length + 1) =
        some (7, [0, 0, 0, 0, 0]) ∧
      ([0, 0, 0, 0, 0] : List Byte).length = msgAbc.length + 1) ∧
    ∃ out, decode (expectProvider 5 7 [0, 0, 0, 0, 0]) msgAbc = some out ∧
      (∀ i b, Event.bufWrite i b ∈ out.trace → i < msgAbc.length + 1) ∧
      (∀ i, Event.msgRead i ∈ out.trace → i ≤ msgAbc.length) ∧
      (∀ i, Event.bufRead i ∈ out.trace → i < msgAbc.length) :=
  ⟨⟨by decide, by decide⟩,
   decode_accesses_in_bounds (expectProvider 5 7 [0, 0, 0, 0, 0]) msgAbc 7 [0, 0, 0, 0, 0]
     (by decide) (by decide)⟩

/-! ## The validation/transform step on its own -/

theorem details_decode_accepts (rest post : List Byte) (o0 : Byte) (orest : List Byte)
    (tr : List Event) (hle : rest.length ≤ orest.length) :
    details.decode (hashChar :: rest ++ post) (rest.length + 1)
        { buf := o0 :: orest, trace := tr } =
      some (0, { buf := bangChar :: rest.map incr ++ orest.drop rest.length,
                 trace := tr ++ Event.msgRead 0 :: Event.bufWrite 0 bangChar ::
                   loopEvents 1 rest }) := by
  have hrun := decodeLoop_run [hashChar] rest [bangChar] orest
    (tr ++ [Event.msgRead 0] ++ [Event.bufWrite 0 bangChar]) post rfl hle
  simp only [List.length_singleton, List.singleton_append] at hrun
  simp only [details.decode, readMsg, writeBuf]
  simp only [List.cons_append, List.getElem?_cons_zero, List.length_cons, List.set_cons_zero]
  simp only [Nat.add_eq_zero, OfNat.ofNat_ne_zero, and_false, if_false, ne_eq, not_true,
    Nat.zero_lt_succ, if_true, Nat.add_one_sub_one]
  simp only [List.cons_append] at hrun
  rw [hrun]
  simp

/-- C12: on arrays `msg` and `output` of `length` bytes, `details::decode`
returns `1` if `length == 0` or `msg[0] != '#'` and `0` otherwise; when it returns
`0` it has stored `'!'` in `output[0]` and `(msg[i] + 1) mod 256` in `output[i]`
for every `i` in `[1, length)`. -/
theorem details_decode_contract (msg : List Byte) (length : Nat) (s : Mem)
    (hmsg : length ≤ msg.length) (hout : length ≤ s.buf.length) :
    ∃ r s', details.decode msg length s = some (r, s') ∧
      ((length = 0 ∨ msg[0]? ≠ some hashChar) → r = 1) ∧
      (¬ (length = 0 ∨ msg[0]? ≠ some hashChar) → r = 0) ∧
      (r = 0 → s'.buf[0]? = some bangChar ∧
        ∀ (i : Nat) (hi : i < msg.length), 1 ≤ i → i < length →
          (s'.buf[i]?).map Fin.val = some ((msg[i].val + 1) % 256)) := by
  obtain ⟨buf, tr⟩ := s
  cases length with
  | zero =>
    refine ⟨1, { buf := buf, trace := tr }, by simp [details.decode], fun _ => rfl,
      fun hn => absurd (Or.inl rfl) hn, ?_⟩
    intro h0
    exact absurd h0 (by decide)
  | succ n =>
    cases msg with
    | nil => simp at hmsg
    | cons b mt =>
      by_cases hb : b = hashChar
      · subst hb
        cases buf with
        | nil => simp at hout
        | cons o0 orest =>
          have hn : n ≤ mt.length := by simpa using hmsg
          have hlen : (mt.take n).length = n := by simp [List.length_take, hn]
          have hle : (mt.take n).length ≤ orest.length := by
            rw [hlen]
            simpa using hout
          have hacc := details_decode_accepts (mt.take n) (mt.drop n) o0 orest tr hle
          rw [hlen] at hacc
          simp only [List.cons_append, List.take_append_drop] at hacc
          refine ⟨0, _, hacc, ?_, fun _ => rfl, fun _ => ⟨by simp, ?_⟩⟩
          · intro hor
            rcases hor with h0 | h0
            · omega
            · simp at h0
          · intro i hi h1 hin
            obtain ⟨j, rfl⟩ : ∃ j, i = j + 1 := ⟨i - 1, by omega⟩
            have hjn : j < n := by omega
            have hj : j < mt.length := by omega
            have hjm : j < ((mt.take n).map incr).length := by
              rw [List.length_map, hlen]
              exact hjn
            simp only [List.cons_append, List.getElem?_cons_succ, List.getElem_cons_succ]
            rw [List.getElem?_append_left hjm, List.getElem?_map,
              List.getElem?_take_of_lt hjn, List.getElem?_eq_getElem hj]
            simp [incr_val]
      · refine ⟨1, { buf := buf, trace := tr ++ [Event.msgRead 0] }, ?_, fun _ => rfl, ?_, ?_⟩
        · simp [details.decode, readMsg, hb]
        · intro hn
          exact absurd (Or.inr (by simpa using hb)) hn
        · intro h0
          exact absurd h0 (by decide)

/-- C12 on the arrays of the test `successful_decode`: `msg` is `"#abc"` with its
terminating zero, `length` is 5, and `output` has 5 bytes. -/
theorem details_decode_contract_witness :
    ((5 : Nat) ≤ (cstr msgAbc).length ∧
      (5 : Nat) ≤ (Mem.mk [9, 9, 9, 9, 9] []).buf.length) ∧
    (∃ r s', details.decode (cstr msgAbc) 5 (Mem.mk [9, 9, 9, 9, 9] []) = some (r, s') ∧
      (((5 : Nat) = 0 ∨ (cstr msgAbc)[0]? ≠ some hashChar) → r = 1) ∧
      (¬ ((5 : Nat) = 0 ∨ (cstr msgAbc)[0]? ≠ some hashChar) → r = 0) ∧
      (r = 0 → s'.buf[0]? = some bangChar ∧
        ∀ (i : Nat) (hi : i < (cstr msgAbc).length), 1 ≤ i → i < 5 →
          (s'.buf[i]?).map Fin.val = some (((cstr msgAbc)[i].val + 1) % 256))) ∧
    (details.decode (cstr msgAbc) 5 (Mem.mk [9, 9, 9, 9, 9] [])).map
        (fun p => (p.1, p.2.buf)) = some (0, [33, 98, 99, 100, 1]) ∧
    (details.decode (cstr msgWrong) 14 (Mem.mk [9] [])).map
        (fun p => (p.1, p.2.buf)) = some (1, [9]) ∧
    (details.decode [] 0 (Mem.mk [] [])).map (fun p => (p.1, p.2.buf)) = some (1, []) :=
  ⟨⟨by decide, by decide⟩,
   details_decode_contract (cstr msgAbc) 5 (Mem.mk [9, 9, 9, 9, 9] []) (by decide) (by decide),
   by decide, by decide, by decide⟩

/-! ## The scratch buffer when it is released -/

theorem bufWrite_mem_loopEvents (rest : List Byte) :
    ∀ (i j : Nat), i ≤ j → j < i + rest.length →
      ∃ b, Event.bufWrite j b ∈ loopEvents i rest := by
  induction rest with
  | nil => intro i j h1 h2; simp at h2; omega
  | cons r rest ih =>
    intro i j h1 h2
    by_cases hij : j = i
    · subst hij
      exact ⟨incr r, by simp [loopEvents]⟩
    · obtain ⟨b, hb⟩ := ih (i + 1) j (by omega) (by simp only [List.length_cons] at h2; omega)
      exact ⟨b, by simp [loopEvents, hb]⟩

theorem wellformed_scratch_eq (t rest : List Byte) :
    bangChar :: (t ++ [(0 : Byte)]).map incr ++ rest =
      bangChar :: (t.map incr ++ incr 0 :: rest) := by
  simp

/-- C13: for a message starting with `'#'` the transform runs over a window of
`len(m)+1` bytes: the buffer indices written are exactly those below `len(m)+1`,
and when `Resource_Free` is called the buffer holds `'!'` at index 0,
`(m[i]+1) mod 256` at every `i` in `[1, len(m))` and the value `1` at index
`len(m)`; the returned result is the first `len(m)` bytes of that buffer, so the
trailing byte is not part of it. -/
theorem decode_scratch_at_release (rs : Provider) (m : List Byte) (h : Handle)
    (buf : List Byte)
    (htag : m[0]? = some hashChar)
    (hres : rs.reserve (m.length + 1) = some (h, buf))
    (hsize : m.length + 1 ≤ buf.length) :
    ∃ out final, decode rs m = some out ∧ out.status = 0 ∧
      out.scratch = some (h, final) ∧
      (∀ i, (∃ b, Event.bufWrite i b ∈ out.trace) ↔ i < m.length + 1) ∧
      final.length = buf.length ∧
      final[0]? = some bangChar ∧
      (∀ (i : Nat) (hi : i < m.length), 1 ≤ i →
        (final[i]?).map Fin.val = some ((m[i].val + 1) % 256)) ∧
      (final[m.length]?).map Fin.val = some 1 ∧
      out.output.length = m.length ∧
      out.output = final.take m.length := by
  obtain ⟨t, rfl⟩ := eq_hash_cons_of_tag m htag
  have hsize2 : t.length + 2 ≤ buf.length := hsize
  refine ⟨_, _, decode_wellformed rs t h buf hres hsize, rfl, rfl, ?_, ?_, ?_, ?_, ?_, ?_, ?_⟩
  · intro i
    constructor
    · rintro ⟨b, hb⟩
      simp only [List.mem_cons, List.mem_append, List.mem_map, List.mem_range,
        List.mem_singleton, List.not_mem_nil, or_false] at hb
      rcases hb with hb | hb | hb | (hb | hb) | hb
      · cases hb
      · cases hb
      · cases hb; simp
      · obtain ⟨j, h1, h2, h3⟩ := mem_loopEvents _ _ _ hb
        simp only [List.length_append, List.length_cons, List.length_nil] at h2 ⊢
        rcases h3 with h3 | ⟨c, h3⟩
        · cases h3
        · cases h3; omega
      · obtain ⟨j, _, h3⟩ := hb
        cases h3
      · cases hb
    · intro hi
      by_cases h0 : i = 0
      · subst h0
        exact ⟨bangChar, by simp⟩
      · obtain ⟨b, hb⟩ := bufWrite_mem_loopEvents (t ++ [(0 : Byte)]) 1 i (by omega)
          (by simp only [List.length_append, List.length_cons, List.length_nil] at hi ⊢; omega)
        exact ⟨b, by simp [hb]⟩
  · simp only [List.length_cons, List.length_append, List.length_map, List.length_nil,
      List.length_drop]
    omega
  · simp
  · intro i hi h1
    obtain ⟨j, rfl⟩ : ∃ j, i = j + 1 := ⟨i - 1, by omega⟩
    have hj : j < t.length := by simpa using hi
    have hjm : j < (t.map incr).length := by simpa using hj
    rw [wellformed_scratch_eq]
    simp only [List.getElem?_cons_succ, List.getElem_cons_succ]
    rw [List.getElem?_append_left hjm, List.getElem?_map, List.getElem?_eq_getElem hj]
    simp [incr_val]
  · rw [wellformed_scratch_eq]
    simp only [List.length_cons, List.getElem?_cons_succ]
    rw [List.getElem?_append_right (by simp)]
    simp [incr_val]
  · simp [Outcome.output]
  · rw [wellformed_scratch_eq]
    simp only [Outcome.output, List.length_cons, List.take_succ_cons]
    rw [List.take_append_of_le_length (by simp)]
    simp

/-- C13 on the test `successful_decode`: the 5-byte buffer ends as
`'!','b','c','d',0x01` and the result is `"!bcd"`. -/
theorem decode_scratch_at_release_witness :
    (msgAbc[0]? = some hashChar ∧
      (expectProvider 5 7 [0, 0, 0, 0, 0]).reserve (msgAbc.length + 1) =
        some (7, [0, 0, 0, 0, 0]) ∧
      msgAbc.length + 1 ≤ ([0, 0, 0, 0, 0] : List Byte).length) ∧
    (∃ out final, decode (expectProvider 5 7 [0, 0, 0, 0, 0]) msgAbc = some out ∧
      out.status = 0 ∧
      out.scratch = some (7, final) ∧
      (∀ i, (∃ b, Event.bufWrite i b ∈ out.trace) ↔ i < msgAbc.length + 1) ∧
      final.length = ([0, 0, 0, 0, 0] : List Byte).length ∧
      final[0]? = some bangChar ∧
      (∀ (i : Nat) (hi : i < msgAbc.length), 1 ≤ i →
        (final[i]?).map Fin.val = some ((msgAbc[i].val + 1) % 256)) ∧
      (final[msgAbc.length]?).map Fin.val = some 1 ∧
      out.output.length = msgAbc.length ∧
      out.output = final.take msgAbc.length) ∧
    (decode (expectProvider 5 7 [0, 0, 0, 0, 0]) msgAbc).map
        (fun o => (o.scratch, o.output)) =
      some (some (7, [33, 98, 99, 100, 1]), [33, 98, 99, 100]) :=
  ⟨⟨by decide, by decide, by decide⟩,
   decode_scratch_at_release (expectProvider 5 7 [0, 0, 0, 0, 0]) msgAbc 7 [0, 0, 0, 0, 0]
     (by decide) (by decide) (by decide),
   by decide⟩

/-! ## Order of the events -/

theorem nothing_after_release (l : List Event) (hl : ∀ e ∈ l, e.isRelease = false)
    (R : List Event) (hR : R = [] ∨ ∃ h, R = [Event.release h]) :
    ∀ (pre post : List Event) (h : Handle),
      l ++ R = pre ++ Event.release h :: post → post = [] := by
  induction l with
  | nil =>
    intro pre post h heq
    rcases hR with rfl | ⟨h2, rfl⟩
    · cases pre <;> simp at heq
    · cases pre with
      | nil =>
        have h3 : h = h2 ∧ post = [] := by simpa using heq.symm
        exact h3.2
      | cons p pre => cases pre <;> simp at heq
  | cons a l ih =>
    intro pre post h heq
    cases pre with
    | nil =>
      simp only [List.cons_append, List.nil_append, List.cons.injEq] at heq
      have ha := hl a (List.mem_cons_self _ _)
      rw [heq.1] at ha
      exact absurd ha (by simp [Event.isRelease])
    | cons p pre =>
      simp only [List.cons_append, List.cons.injEq] at heq
      exact ih (fun e he => hl e (List.mem_cons_of_mem _ he)) pre post h heq.2

theorem transformAccess_not_release (e : Event) (he : e.isTransformAccess = true) :
    e.isRelease = false := by
  cases e <;> simp_all [Event.isTransformAccess, Event.isRelease]

/-- C14: in every call the trace is the call of `Resource_Reserve`, then the
accesses of the validation/transform step, then (on status `0` only) the reads
of the copy-out, then the call of `Resource_Free` if a buffer was reserved; and
nothing at all follows a call of `Resource_Free`. -/
theorem decode_event_order (rs : Provider) (m : List Byte)
    (hc : rs.honours (m.length + 1) = true) :
    ∃ out T, decode rs m = some out ∧
      out.trace = Event.reserve (m.length + 1) ::
        (T ++ (if out.status = 0 then (List.range m.length).map Event.bufRead else []) ++
          closing (rs.reserve (m.length + 1))) ∧
      (∀ e ∈ T, e.isTransformAccess = true) ∧
      (∀ (pre post : List Event) (h : Handle),
        out.trace = pre ++ Event.release h :: post → post = []) := by
  rcases decode_paths rs m hc with ⟨hn, hd⟩ | ⟨h, buf, hs, _, hd⟩ | ⟨h, buf, t, hs, rfl, hd⟩
  · refine ⟨_, [], hd, by simp [Outcome.status, hn, closing], by simp, ?_⟩
    intro pre post h2 heq
    exact nothing_after_release [Event.reserve (m.length + 1)]
      (by intro e he; simp at he; subst he; rfl) [] (Or.inl rfl) pre post h2
      (by simpa using heq)
  · refine ⟨_, [Event.msgRead 0], hd, by simp [Outcome.status, hs, closing], ?_, ?_⟩
    · intro e he
      simp at he
      subst he
      rfl
    · intro pre post h2 heq
      exact nothing_after_release [Event.reserve (m.length + 1), Event.msgRead 0]
        (by intro e he; simp at he; rcases he with rfl | rfl <;> rfl)
        [Event.release h] (Or.inr ⟨h, rfl⟩) pre post h2 (by simpa using heq)
  · have hs2 : rs.reserve (t.length + 1 + 1) = some (h, buf) := hs
    refine ⟨_, Event.msgRead 0 :: Event.bufWrite 0 bangChar :: loopEvents 1 (t ++ [(0 : Byte)]),
      hd, by simp [Outcome.status, hs2, closing], ?_, ?_⟩
    · intro e he
      simp only [List.mem_cons] at he
      rcases he with rfl | rfl | he
      · rfl
      · rfl
      · exact loopEvents_isTransformAccess _ _ e he
    · intro pre post h2 heq
      refine nothing_after_release
        (Event.reserve (t.length + 2) :: Event.msgRead 0 :: Event.bufWrite 0 bangChar ::
          (loopEvents 1 (t ++ [(0 : Byte)]) ++ (List.range (t.length + 1)).map Event.bufRead))
        ?_ [Event.release h] (Or.inr ⟨h, rfl⟩) pre post h2 (by simpa using heq)
      intro e he
      simp only [List.mem_cons, List.mem_append, List.mem_map, List.mem_range] at he
      rcases he with rfl | rfl | rfl | he | ⟨j, _, rfl⟩
      · rfl
      · rfl
      · rfl
      · exact loopEvents_isRelease _ _ e he
      · rfl

/-- C14 on the three tests: the success path, the malformed-input path and the
path where no buffer is handed out. -/
theorem decode_event_order_witness :
    ((expectProvider 5 7 [0, 0, 0, 0, 0]).honours (msgAbc.length + 1) = true ∧
      ∃ out T, decode (expectProvider 5 7 [0, 0, 0, 0, 0]) msgAbc = some out ∧
        out.trace = Event.reserve (msgAbc.length + 1) ::
          (T ++ (if out.status = 0 then (List.range msgAbc.length).map Event.bufRead else []) ++
            closing ((expectProvider 5 7 [0, 0, 0, 0, 0]).reserve (msgAbc.length + 1))) ∧
        (∀ e ∈ T, e.isTransformAccess = true) ∧
        (∀ (pre post : List Event) (h : Handle),
          out.trace = pre ++ Event.release h :: post → post = [])) ∧
    (decode (expectProvider 5 7 [0, 0, 0, 0, 0]) msgAbc).map Outcome.trace =
      some [Event.reserve 5, Event.msgRead 0, Event.bufWrite 0 33, Event.msgRead 1,
        Event.bufWrite 1 98, Event.msgRead 2, Event.bufWrite 2 99, Event.msgRead 3,
        Event.bufWrite 3 100, Event.msgRead 4, Event.bufWrite 4 1, Event.bufRead 0,
        Event.bufRead 1, Event.bufRead 2, Event.bufRead 3, Event.release 7] ∧
    (decode (expectProvider 14 9 (List.replicate 14 0)) msgWrong).map Outcome.trace =
      some [Event.reserve 14, Event.msgRead 0, Event.release 9] ∧
    (decode nullProvider msgTooMuch).map Outcome.trace = some [Event.reserve 39] :=
  ⟨⟨by decide, decode_event_order (expectProvider 5 7 [0, 0, 0, 0, 0]) msgAbc (by decide)⟩,
   by decide, by decide, by decide⟩

/-! ## Behaviour that follows from the two functions together -/

/-- C15: the returned pair does not depend on what the scratch buffer holds when
it is handed out: two runs on the same message with any two buffers of
`len(m)+1` bytes return the same `(output, status)`, and every buffer index that
is copied out has been written by the transform. -/
theorem decode_ignores_buffer_contents (rs1 rs2 : Provider) (m : List Byte)
    (h1 h2 : Handle) (buf1 buf2 : List Byte)
    (hres1 : rs1.reserve (m.length + 1) = some (h1, buf1))
    (hres2 : rs2.reserve (m.length + 1) = some (h2, buf2))
    (hlen1 : buf1.length = m.length + 1) (hlen2 : buf2.length = m.length + 1) :
    ∃ out1 out2, decode rs1 m = some out1 ∧ decode rs2 m = some out2 ∧
      out1.value = out2.value ∧
      (∀ i, Event.bufRead i ∈ out1.trace → ∃ b, Event.bufWrite i b ∈ out1.trace) := by
  by_cases htag : m[0]? = some hashChar
  · obtain ⟨t, rfl⟩ := eq_hash_cons_of_tag m htag
    have hs1 : t.length + 2 ≤ buf1.length := by
      simp only [List.length_cons] at hlen1
      omega
    have hs2 : t.length + 2 ≤ buf2.length := by
      simp only [List.length_cons] at hlen2
      omega
    refine ⟨_, _, decode_wellformed rs1 t h1 buf1 hres1 hs1,
      decode_wellformed rs2 t h2 buf2 hres2 hs2, rfl, ?_⟩
    intro i hi
    simp only [List.mem_cons, List.mem_append, List.mem_map, List.mem_range,
      List.mem_singleton, List.not_mem_nil, or_false] at hi
    rcases hi with hi | hi | hi | (hi | hi) | hi
    · cases hi
    · cases hi
    · cases hi
    · obtain ⟨j, _, _, h3 | ⟨c, h3⟩⟩ := mem_loopEvents _ _ _ hi <;> cases h3
    · obtain ⟨j, hj, h3⟩ := hi
      cases h3
      by_cases h0 : i = 0
      · subst h0
        exact ⟨bangChar, by simp⟩
      · obtain ⟨b, hb⟩ := bufWrite_mem_loopEvents (t ++ [(0 : Byte)]) 1 i (by omega)
          (by simp only [List.length_append, List.length_cons, List.length_nil]; omega)
        exact ⟨b, by simp [hb]⟩
    · cases hi
  · refine ⟨_, _, decode_malformed rs1 m h1 buf1 hres1 htag,
      decode_malformed rs2 m h2 buf2 hres2 htag, rfl, ?_⟩
    intro i hi
    simp at hi

/-- C15 on `"#abc"` with a buffer of zeros and a buffer of other bytes. -/
theorem decode_ignores_buffer_contents_witness :
    ((expectProvider 5 7 [0, 0, 0, 0, 0]).reserve (msgAbc.length + 1) =
        some (7, [0, 0, 0, 0, 0]) ∧
      (expectProvider 5 9 [35, 255, 7, 33, 200]).reserve (msgAbc.length + 1) =
        some (9, [35, 255, 7, 33, 200]) ∧
      ([0, 0, 0, 0, 0] : List Byte).length = msgAbc.length + 1 ∧
      ([35, 255, 7, 33, 200] : List Byte).length = msgAbc.length + 1) ∧
    ∃ out1 out2, decode (expectProvider 5 7 [0, 0, 0, 0, 0]) msgAbc = some out1 ∧
      decode (expectProvider 5 9 [35, 255, 7, 33, 200]) msgAbc = some out2 ∧
      out1.value = out2.value ∧
      (∀ i, Event.bufRead i ∈ out1.trace → ∃ b, Event.bufWrite i b ∈ out1.trace) :=
  ⟨⟨by decide, by decide, by decide, by decide⟩,
   decode_ignores_buffer_contents (expectProvider 5 7 [0, 0, 0, 0, 0])
     (expectProvider 5 9 [35, 255, 7, 33, 200]) msgAbc 7 9 [0, 0, 0, 0, 0]
     [35, 255, 7, 33, 200] (by decide) (by decide) (by decide) (by decide)⟩

/-- C16: `decode` hands `details::decode` the array `msg.data()` of
`len(m)+1` bytes and that number, never zero, as `length`: the run of
`details::decode` with that length is the run inside `decode` (its trace opens
the trace of `decode`, its buffer is the one released, its return value is the
status).  So the `length == 0` test, which returns `1` without touching memory,
is never taken: in the trace of `decode` the read of `msg[0]` follows the call of
`Resource_Reserve` at once.  For the empty message the trace is reserve, read of
`msg[0]`, release; the byte read is the terminating zero, which is not `'#'`,
hence `("", 1)`; with the same `length` of 1 and `'#'` as that byte the step
returns `0`. -/
theorem decode_length_test_never_true (rs : Provider) (m : List Byte) (h : Handle)
    (buf : List Byte)
    (hres : rs.reserve (m.length + 1) = some (h, buf))
    (hsize : m.length + 1 ≤ buf.length) :
    (cstr m).length = m.length + 1 ∧ 1 ≤ m.length + 1 ∧
    (∀ (msg : List Byte) (s : Mem), details.decode msg 0 s = some (1, s)) ∧
    (∃ out r s,
      decode rs m = some out ∧
      details.decode (cstr m) (m.length + 1)
        { buf := buf, trace := [Event.reserve (m.length + 1)] } = some (r, s) ∧
      out.status = r ∧ out.scratch = some (h, s.buf) ∧
      (∃ rest, out.trace = s.trace ++ rest) ∧
      Event.msgRead 0 ∈ s.trace ∧
      out.trace[0]? = some (Event.reserve (m.length + 1)) ∧
      out.trace[1]? = some (Event.msgRead 0)) ∧
    (m = [] → ∃ out, decode rs m = some out ∧
      out.trace = [Event.reserve 1, Event.msgRead 0, Event.release h] ∧
      (cstr m)[0]? = some 0 ∧ (0 : Byte) ≠ hashChar ∧
      out.value = ([], 1)) ∧
    (∀ (o0 : Byte) (tr : List Event),
      (details.decode [hashChar] 1 { buf := [o0], trace := tr }).map Prod.fst = some 0) := by
  refine ⟨by simp [cstr], by omega, fun msg s => by simp [details.decode], ?_, ?_, ?_⟩
  · by_cases htag : m[0]? = some hashChar
    · obtain ⟨t, rfl⟩ := eq_hash_cons_of_tag m htag
      refine ⟨_, 0, _, decode_wellformed rs t h buf hres hsize,
        details_decode_wellformed t buf _ hsize, rfl, rfl, ?_, by simp, rfl, rfl⟩
      exact ⟨(List.range (t.length + 1)).map Event.bufRead ++ [Event.release h], by simp⟩
    · exact ⟨_, 1, _, decode_malformed rs m h buf hres htag,
        details_decode_malformed m _ htag, rfl, rfl, ⟨[Event.release h], rfl⟩, by simp,
        rfl, rfl⟩
  · intro hm
    subst hm
    exact ⟨_, decode_malformed rs [] h buf hres (by simp), rfl, rfl, by decide, rfl⟩
  · intro o0 tr
    have hacc := details_decode_accepts [] [] o0 [] tr (Nat.le_refl _)
    simp only [List.length_nil, List.append_nil, Nat.zero_add] at hacc
    rw [hacc]
    rfl

/-- C16 on the empty message with a one-byte buffer: the trace of `decode("")`
is reserve of 1 byte, read of `msg[0]`, release. -/
theorem decode_length_test_never_true_witness :
    ((expectProvider 1 7 [0]).reserve (([] : List Byte).length + 1) = some (7, [0]) ∧
      ([] : List Byte).length + 1 ≤ ([0] : List Byte).length) ∧
    ((cstr []).length = ([] : List Byte).length + 1 ∧ 1 ≤ ([] : List Byte).length + 1 ∧
    (∀ (msg : List Byte) (s : Mem), details.decode msg 0 s = some (1, s)) ∧
    (∃ out r s,
      decode (expectProvider 1 7 [0]) [] = some out ∧
      details.decode (cstr []) (([] : List Byte).length + 1)
        { buf := [0], trace := [Event.reserve (([] : List Byte).length + 1)] } = some (r, s) ∧
      out.status = r ∧ out.scratch = some (7, s.buf) ∧
      (∃ rest, out.trace = s.trace ++ rest) ∧
      Event.msgRead 0 ∈ s.trace ∧
      out.trace[0]? = some (Event.reserve (([] : List Byte).length + 1)) ∧
      out.trace[1]? = some (Event.msgRead 0)) ∧
    (([] : List Byte) = [] → ∃ out, decode (expectProvider 1 7 [0]) [] = some out ∧
      out.trace = [Event.reserve 1, Event.msgRead 0, Event.release 7] ∧
      (cstr [])[0]? = some 0 ∧ (0 : Byte) ≠ hashChar ∧
      out.value = ([], 1)) ∧
    (∀ (o0 : Byte) (tr : List Event),
      (details.decode [hashChar] 1 { buf := [o0], trace := tr }).map Prod.fst = some 0)) ∧
    decode (expectProvider 1 7 [0]) [] =
      some { value := ([], 1),
             trace := [Event.reserve 1, Event.msgRead 0, Event.release 7],
             scratch := some (7, [0]) } ∧
    (decode (expectProvider 5 7 [0, 0, 0, 0, 0]) msgAbc).map (fun o => o.trace.take 2) =
      some [Event.reserve 5, Event.msgRead 0] :=
  ⟨⟨by decide, by decide⟩,
   decode_length_test_never_true (expectProvider 1 7 [0]) [] 7 [0] (by decide) (by decide),
   by decide, by decide⟩

theorem decr_incr (b : Byte) : decr (incr b) = b := by
  apply Fin.ext
  have hb := b.isLt
  simp only [decr, incr]
  omega

theorem map_decr_map_incr (t : List Byte) : (t.map incr).map decr = t := by
  induction t with
  | nil => rfl
  | cons b t ih =>
    rw [List.map_cons, List.map_cons, decr_incr, ih]

theorem specInverse_transformed (t : List Byte) :
    specInverse (bangChar :: t.map incr) = hashChar :: t := by
  show (if bangChar = bangChar then hashChar else bangChar) :: (t.map incr).map decr =
    hashChar :: t
  rw [map_decr_map_incr, if_pos rfl]

/-- C17: on the malformed-input path the scratch buffer is released as it was
handed out: for a message that is empty or does not start with `'#'`, and any
buffer, the trace holds no buffer write and the bytes handed to `Resource_Free`
are the bytes `Resource_Reserve` returned. -/
theorem decode_malformed_keeps_buffer (rs : Provider) (m : List Byte) (h : Handle)
    (buf : List Byte)
    (hmal : m = [] ∨ ∃ b, m[0]? = some b ∧ b ≠ hashChar)
    (hres : rs.reserve (m.length + 1) = some (h, buf)) :
    ∃ out, decode rs m = some out ∧ out.status = 1 ∧
      out.scratch = some (h, buf) ∧
      (∀ i b, Event.bufWrite i b ∉ out.trace) ∧
      out.trace.getLast? = some (Event.release h) := by
  have htag : m[0]? ≠ some hashChar := by
    rcases hmal with rfl | ⟨b, hb, hne⟩
    · simp
    · rw [hb]
      exact fun he => hne (Option.some.inj he)
  refine ⟨_, decode_malformed rs m h buf hres htag, rfl, rfl, ?_, rfl⟩
  intro i b hi
  simp at hi

/-- C17 on the test `unsuccessful_decode` with a buffer of arbitrary bytes, and
on the empty message. -/
theorem decode_malformed_keeps_buffer_witness :
    ((msgWrong = [] ∨ ∃ b, msgWrong[0]? = some b ∧ b ≠ hashChar) ∧
      (expectProvider 14 9 (List.replicate 14 170)).reserve (msgWrong.length + 1) =
        some (9, List.replicate 14 170)) ∧
    (∃ out, decode (expectProvider 14 9 (List.replicate 14 170)) msgWrong = some out ∧
      out.status = 1 ∧
      out.scratch = some (9, List.replicate 14 170) ∧
      (∀ i b, Event.bufWrite i b ∉ out.trace) ∧
      out.trace.getLast? = some (Event.release 9)) ∧
    (∃ out, decode (expectProvider 1 7 [170]) [] = some out ∧
      out.status = 1 ∧
      out.scratch = some (7, [170]) ∧
      (∀ i b, Event.bufWrite i b ∉ out.trace) ∧
      out.trace.getLast? = some (Event.release 7)) :=
  ⟨⟨Or.inr ⟨119, by decide, by decide⟩, by decide⟩,
   decode_malformed_keeps_buffer (expectProvider 14 9 (List.replicate 14 170)) msgWrong 9
     (List.replicate 14 170) (Or.inr ⟨119, by decide, by decide⟩) (by decide),
   decode_malformed_keeps_buffer (expectProvider 1 7 [170]) [] 7 [170] (Or.inl rfl)
     (by decide)⟩

/-- C18: `decode` is injective on messages that start with `'#'`: the map that
puts `'#'` back at index 0 and subtracts 1 modulo 256 from every other byte
takes the output of `decode` back to the message, so two such messages with the
same output are equal. -/
theorem decode_injective (rs1 rs2 : Provider) (m1 m2 : List Byte) (h1 h2 : Handle)
    (buf1 buf2 : List Byte)
    (htag1 : m1[0]? = some hashChar) (htag2 : m2[0]? = some hashChar)
    (hres1 : rs1.reserve (m1.length + 1) = some (h1, buf1))
    (hres2 : rs2.reserve (m2.length + 1) = some (h2, buf2))
    (hsize1 : m1.length + 1 ≤ buf1.length) (hsize2 : m2.length + 1 ≤ buf2.length) :
    ∃ out1 out2, decode rs1 m1 = some out1 ∧ decode rs2 m2 = some out2 ∧
      out1.status = 0 ∧ out2.status = 0 ∧
      specInverse out1.output = m1 ∧ specInverse out2.output = m2 ∧
      (out1.output = out2.output → m1 = m2) := by
  obtain ⟨t1, rfl⟩ := eq_hash_cons_of_tag m1 htag1
  obtain ⟨t2, rfl⟩ := eq_hash_cons_of_tag m2 htag2
  refine ⟨_, _, decode_wellformed rs1 t1 h1 buf1 hres1 hsize1,
    decode_wellformed rs2 t2 h2 buf2 hres2 hsize2, rfl, rfl,
    specInverse_transformed t1, specInverse_transformed t2, ?_⟩
  intro heq
  have h3 : specInverse (bangChar :: t1.map incr) = specInverse (bangChar :: t2.map incr) :=
    congrArg specInverse heq
  rw [specInverse_transformed, specInverse_transformed] at h3
  exact h3

/-- C18 on `"#abc"` and `"#ab"`: each output is taken back to its message. -/
theorem decode_injective_witness :
    (msgAbc[0]? = some hashChar ∧ msgAb[0]? = some hashChar ∧
      (expectProvider 5 7 [0, 0, 0, 0, 0]).reserve (msgAbc.length + 1) =
        some (7, [0, 0, 0, 0, 0]) ∧
      (expectProvider 4 9 [0, 0, 0, 0]).reserve (msgAb.length + 1) = some (9, [0, 0, 0, 0]) ∧
      msgAbc.length + 1 ≤ ([0, 0, 0, 0, 0] : List Byte).length ∧
      msgAb.length + 1 ≤ ([0, 0, 0, 0] : List Byte).length) ∧
    (∃ out1 out2, decode (expectProvider 5 7 [0, 0, 0, 0, 0]) msgAbc = some out1 ∧
      decode (expectProvider 4 9 [0, 0, 0, 0]) msgAb = some out2 ∧
      out1.status = 0 ∧ out2.status = 0 ∧
      specInverse out1.output = msgAbc ∧ specInverse out2.output = msgAb ∧
      (out1.output = out2.output → msgAbc = msgAb)) ∧
    specInverse [33, 98, 99, 100] = msgAbc ∧ specInverse [33, 0] = msgWrap :=
  ⟨⟨by decide, by decide, by decide, by decide, by decide, by decide⟩,
   decode_injective (expectProvider 5 7 [0, 0, 0, 0, 0]) (expectProvider 4 9 [0, 0, 0, 0])
     msgAbc msgAb 7 9 [0, 0, 0, 0, 0] [0, 0, 0, 0]
     (by decide) (by decide) (by decide) (by decide) (by decide) (by decide),
   by decide, by decide⟩

/-- C19: the output of a successful `decode` is never accepted by `decode`: for a
message starting with `'#'`, the output starts with `'!'`, which is not `'#'`,
and decoding it (a buffer being handed out again) returns `("", 1)`. -/
theorem decode_output_rejected (rs1 rs2 : Provider) (m : List Byte) (h1 h2 : Handle)
    (buf1 buf2 : List Byte)
    (htag : m[0]? = some hashChar)
    (hres1 : rs1.reserve (m.length + 1) = some (h1, buf1))
    (hsize1 : m.length + 1 ≤ buf1.length)
    (hres2 : rs2.reserve (m.length + 1) = some (h2, buf2)) :
    ∃ out1, decode rs1 m = some out1 ∧ out1.status = 0 ∧
      out1.output[0]? = some bangChar ∧ bangChar ≠ hashChar ∧
      (decode rs2 out1.output).map Outcome.value = some ([], 1) := by
  obtain ⟨t, rfl⟩ := eq_hash_cons_of_tag m htag
  refine ⟨_, decode_wellformed rs1 t h1 buf1 hres1 hsize1, rfl, by simp [Outcome.output],
    by decide, ?_⟩
  have hres3 : rs2.reserve ((bangChar :: t.map incr).length + 1) = some (h2, buf2) := by
    simpa using hres2
  have hbang : (bangChar :: t.map incr)[0]? ≠ some hashChar := by
    simp only [List.getElem?_cons_zero, ne_eq, Option.some.injEq]
    decide
  show (decode rs2 (bangChar :: t.map incr)).map Outcome.value = some ([], 1)
  rw [decode_malformed rs2 (bangChar :: t.map incr) h2 buf2 hres3 hbang]
  rfl

/-- C19 on `"#abc"`: its output `"!bcd"` is rejected with `("", 1)`. -/
theorem decode_output_rejected_witness :
    (msgAbc[0]? = some hashChar ∧
      (expectProvider 5 7 [0, 0, 0, 0, 0]).reserve (msgAbc.length + 1) =
        some (7, [0, 0, 0, 0, 0]) ∧
      msgAbc.length + 1 ≤ ([0, 0, 0, 0, 0] : List Byte).length ∧
      (expectProvider 5 9 [33, 98, 99, 100, 1]).reserve (msgAbc.length + 1) =
        some (9, [33, 98, 99, 100, 1])) ∧
    (∃ out1, decode (expectProvider 5 7 [0, 0, 0, 0, 0]) msgAbc = some out1 ∧
      out1.status = 0 ∧
      out1.output[0]? = some bangChar ∧ bangChar ≠ hashChar ∧
      (decode (expectProvider 5 9 [33, 98, 99, 100, 1]) out1.output).map Outcome.value =
        some ([], 1)) ∧
    (decode (expectProvider 5 9 [33, 98, 99, 100, 1]) [33, 98, 99, 100]).map Outcome.value =
      some ([], 1) :=
  ⟨⟨by decide, by decide, by decide, by decide⟩,
   decode_output_rejected (expectProvider 5 7 [0, 0, 0, 0, 0])
     (expectProvider 5 9 [33, 98, 99, 100, 1]) msgAbc 7 9 [0, 0, 0, 0, 0]
     [33, 98, 99, 100, 1] (by decide) (by decide) (by decide) (by decide),
   by decide⟩

end Decoder
